import Mathlib

unseal Rat.add Rat.mul Rat.sub Rat.inv

/-!
Shallow embedding of the core of `nonneural_tur.py` (a non-neural baseline for
SIGMORPHON 2020 shared task 0): hamming distance, the memoized recursive
Levenshtein aligner, the alignment segmenter `alignprs`, the rule extractor
`prefix_suffix_rules_get`, and the rule applier `apply_best_rule`.

Python strings are modelled as `List Char`; Python floats (used only as edit
costs `1.0` / `1.1`) as `ℚ`; Python dicts as association lists.
-/

namespace NonNeuralTur

/-- Python strings are modelled as lists of characters (code points). -/
abbrev Str := List Char

/-- Association-list lookup, modelling Python `dict` access / `in` tests
(keys are unique in every use in the program). -/
def alookup {α β : Type} [DecidableEq α] (k : α) : List (α × β) → Option β
  | [] => none
  | e :: rest => if e.1 = k then some e.2 else alookup k rest

/-- Python substring test `p in s`. -/
def isSubstr (p : Str) : Str → Bool
  | [] => p.isPrefixOf []
  | s@(_ :: rest) => p.isPrefixOf s || isSubstr p rest

/-- Python `max(b :: l, key = f)`: scan left to right and replace the current
best only when the new element's key is strictly larger, so among elements
with maximal key the first one wins. -/
def pymax {α κ : Type} [LinearOrder κ] (f : α → κ) : α → List α → α
  | b, [] => b
  | b, x :: xs => pymax f (if f b < f x then x else b) xs

/-- Python `min((x, y, z), key = fun r => r.2.2)` on the alignment triples of
`lrec`: the first triple with minimal cost wins. -/
def min3q (x y z : Str × Str × ℚ) : Str × Str × ℚ :=
  if x.2.2 ≤ y.2.2 ∧ x.2.2 ≤ z.2.2 then x else if y.2.2 ≤ z.2.2 then y else z

/-- Fuel-driven worker for Python `s.replace(old, new)` with nonempty `old`:
scan left to right, replacing every non-overlapping occurrence.  The fuel is
always instantiated with `s.length`, which suffices since each step consumes
at least one character of `s`. -/
def pyReplaceAux (old new : Str) : Nat → Str → Str
  | 0, s => s
  | _ + 1, [] => []
  | fuel + 1, c :: rest =>
    if old.isPrefixOf (c :: rest) then new ++ pyReplaceAux old new fuel ((c :: rest).drop old.length)
    else c :: pyReplaceAux old new fuel rest

/-- Python `s.replace(old, new)`: replaces all non-overlapping occurrences of
`old` in `s` by `new`, scanning left to right.  For `old = ""` Python inserts
`new` at every position boundary, including both ends. -/
def pyReplace (s old new : Str) : Str :=
  match old with
  | [] => new ++ s.flatMap (fun c => c :: new)
  | _ :: _ => pyReplaceAux old new s.length s

/-- The replacement semantics the specification describes for
`apply_best_rule`: substitute `new` for the first occurrence of `old` only,
leaving any later occurrence unchanged.  (For `old = ""` this is Python's
`s.replace(old, new, 1)`, which prepends `new`.) -/
def replaceFirstSpec : Str → Str → Str → Str
  | s, [], new => new ++ s
  | [], _ :: _, _ => []
  | c :: rest, old@(_ :: _), new =>
    if old.isPrefixOf (c :: rest) then new ++ (c :: rest).drop old.length
    else c :: replaceFirstSpec rest old new

/-- Fuel-driven worker counting the non-overlapping occurrences of a nonempty
pattern `old`, with the same left-to-right scan as `pyReplaceAux`. -/
def occCountAux (old : Str) : Nat → Str → Nat
  | 0, _ => 0
  | _ + 1, [] => 0
  | fuel + 1, c :: rest =>
    if old.isPrefixOf (c :: rest) then 1 + occCountAux old fuel ((c :: rest).drop old.length)
    else occCountAux old fuel rest

/-- Number of occurrences of `old` that the left-to-right non-overlapping scan
of `pyReplace` finds in `s` (for `old = ""` every one of the `s.length + 1`
boundaries counts, as in Python's `s.count("")`). -/
def occCount (s old : Str) : Nat :=
  match old with
  | [] => s.length + 1
  | _ :: _ => occCountAux old s.length s

/-- Source `hamming(s, t)`: `sum(1 for x, y in zip(s, t) if x != y)`.  Python `zip`
truncates to the shorter argument. -/
def hamming (s t : Str) : Nat :=
  (s.zip t).countP (fun p => decide ¬p.1 = p.2)

/-- The mathematical content of the recursion `lrec` inside `levenshtein`,
with the accumulated prefixes and cost stripped off: `lrecPure i d c sr tr`
is the (aligned remainder of `sr`, aligned remainder of `tr`, incremental
cost) that `lrec` appends to the caller's accumulators.  Defined with
`List.rec` (structural recursion on `sr` with an inner structural recursion
on `tr`) so that it evaluates by kernel reduction.

Note the two base cases charge `len(trem)` resp. `len(srem)` — a cost of `1`
per remaining character regardless of `inscost` / `delcost` — exactly as
lines 74/76 of the source do. -/
def lrecPure (ic dc sc : ℚ) : Str → Str → Str × Str × ℚ :=
  List.rec
    (motive := fun _ => Str → Str × Str × ℚ)
    (fun tr => (List.replicate tr.length '_', tr, (tr.length : ℚ)))
    (fun a sr ih =>
      List.rec
        (motive := fun _ => Str × Str × ℚ)
        (a :: sr, List.replicate (a :: sr).length '_', ((a :: sr).length : ℚ))
        (fun b tr ihg =>
          min3q
            (a :: (ih tr).1, b :: (ih tr).2.1, (if a = b then 0 else sc) + (ih tr).2.2)
            ('_' :: ihg.1, b :: ihg.2.1, ic + ihg.2.2)
            (a :: (ih (b :: tr)).1, '_' :: (ih (b :: tr)).2.1, dc + (ih (b :: tr)).2.2)))

/-- The memo cache of `memolrec`: maps a pair of remaining suffixes to the
stored (incremental aligned lemma, incremental aligned form, incremental
cost) triple. -/
abbrev Cache := List ((Str × Str) × (Str × Str × ℚ))

/-- The memoized recursion: `memolrec`'s wrapper around the body of `lrec`.
On a cache hit the stored suffix fragment is recombined with the caller's
accumulated prefixes and cost; on a miss the body runs (its three recursive
calls thread the cache left to right, as Python's argument evaluation does),
and the result minus the caller's prefixes/cost is stored under the pair of
remaining suffixes.  The positions `res[2]`/`res[3]` of the Python 5-tuples
are always `''` and are omitted; `res[4]` is the third component.

The extra `Nat` argument is fuel making the recursion structural: every
recursive call strictly shrinks `sr.length + tr.length`, so any fuel
exceeding that sum makes the fuel case unreachable (`lrecM_correct` is
proved for every such fuel, and `levenshtein` passes one). -/
def lrecMAux (ic dc sc : ℚ) : Nat → Str → Str → Str → Str → ℚ → Cache →
    (Str × Str × ℚ) × Cache
  | 0, sp, tp, _, _, cost, cache => ((sp, tp, cost), cache)
  | fuel + 1, sp, tp, sr, tr, cost, cache =>
    match alookup (sr, tr) cache with
    | some e => ((sp ++ e.1, tp ++ e.2.1, cost + e.2.2), cache)
    | none =>
      let rc : (Str × Str × ℚ) × Cache :=
        match sr, tr with
        | [], t => ((sp ++ List.replicate t.length '_', tp ++ t, cost + (t.length : ℚ)), cache)
        | s@(_ :: _), [] =>
          ((sp ++ s, tp ++ List.replicate s.length '_', cost + (s.length : ℚ)), cache)
        | a :: sr', b :: tr' =>
          let x1 := lrecMAux ic dc sc fuel (sp ++ [a]) (tp ++ [b]) sr' tr'
            (cost + if a = b then 0 else sc) cache
          let x2 := lrecMAux ic dc sc fuel (sp ++ ['_']) (tp ++ [b]) (a :: sr') tr'
            (cost + ic) x1.2
          let x3 := lrecMAux ic dc sc fuel (sp ++ [a]) (tp ++ ['_']) sr' (b :: tr')
            (cost + dc) x2.2
          (min3q x1.1 x2.1 x3.1, x3.2)
      let e := (rc.1.1.drop sp.length, rc.1.2.1.drop tp.length, rc.1.2.2 - cost)
      ((sp ++ e.1, tp ++ e.2.1, cost + e.2.2), ((sr, tr), e) :: rc.2)

/-- The same recursion as `lrec` evaluated without any memoization (the inner
function of `levenshtein` with the `@memolrec` decorator removed). -/
def lrecNM (ic dc sc : ℚ) (sp tp sr tr : Str) (cost : ℚ) : Str × Str × ℚ :=
  match sr, tr with
  | [], t => (sp ++ List.replicate t.length '_', tp ++ t, cost + (t.length : ℚ))
  | s@(_ :: _), [] => (sp ++ s, tp ++ List.replicate s.length '_', cost + (s.length : ℚ))
  | a :: sr', b :: tr' =>
    min3q
      (lrecNM ic dc sc (sp ++ [a]) (tp ++ [b]) sr' tr' (cost + if a = b then 0 else sc))
      (lrecNM ic dc sc (sp ++ ['_']) (tp ++ [b]) (a :: sr') tr' (cost + ic))
      (lrecNM ic dc sc (sp ++ [a]) (tp ++ ['_']) sr' (b :: tr') (cost + dc))
termination_by sr.length + tr.length
decreasing_by
  all_goals (try simp)
  all_goals omega

/-- Source `levenshtein(s, t, inscost, delcost, substcost)`: runs the memoized
recursion with empty accumulators, zero cost and a fresh cache, and returns
(aligned `s`, aligned `t`, total cost).  The Python defaults are
`inscost = delcost = substcost = 1.0`. -/
def levenshtein (s t : Str) (inscost delcost substcost : ℚ) : Str × Str × ℚ :=
  (lrecMAux inscost delcost substcost (s.length + t.length + 1) [] [] s t 0 []).1

/-- Python `s.lstrip(c)` for a single character `c`. -/
def pyLstrip (c : Char) (s : Str) : Str := s.dropWhile (· = c)

/-- Source `len(s) - len(s.lstrip('_'))`: the length of the leading run of
gap-markers (the `lspace` contribution of one aligned string). -/
def leadingGaps (s : Str) : Nat := s.length - (pyLstrip '_' s).length

/-- Source `len(s[::-1]) - len(s[::-1].lstrip('_'))`: the length of the trailing run
of gap-markers. -/
def trailingGaps (s : Str) : Nat := s.reverse.length - (pyLstrip '_' s.reverse).length

/-- Python slice `s[a:b]` for `0 ≤ a, b` (clamping, empty when `b ≤ a`). -/
def pySlice (s : Str) (a b : Nat) : Str := (s.take b).drop a

/-- Source `alignprs(lemma, form)`: aligns with `levenshtein(lemma, form,
substcost=1.1)` and slices both aligned strings at
`[0:lspace)`, `[lspace:len(alemma)-tspace)`, `[len(alemma)-tspace:]`, where
`lspace`/`tspace` are the maxima over both aligned strings of the
leading/trailing gap runs.  Returns
(prefix_in, root_in, suffix_in, prefix_out, root_out, suffix_out). -/
def alignprs (lem form : Str) : Str × Str × Str × Str × Str × Str :=
  let al := levenshtein lem form 1 1 (11 / 10)
  let alemma := al.1
  let aform := al.2.1
  let lspace := max (leadingGaps alemma) (leadingGaps aform)
  let tspace := max (trailingGaps alemma) (trailingGaps aform)
  (pySlice alemma 0 lspace, pySlice alemma lspace (alemma.length - tspace),
    alemma.drop (alemma.length - tspace),
    pySlice aform 0 lspace, pySlice aform lspace (alemma.length - tspace),
    aform.drop (alemma.length - tspace))

/-- The inner `generate_rules(ins, outs)` of `prefix_suffix_rules_get`:
`{(ins[i:], outs[i:]) for i in range(min(len(ins), len(outs)))}`, then strip
all gap-markers from both components.  Python's sets are modelled as
duplicate-free lists (`dedup`); set iteration order is arbitrary in Python,
so only membership in this list is meaningful. -/
def generate_rules (ins outs : Str) : List (Str × Str) :=
  (((List.range (min ins.length outs.length)).map (fun i => (ins.drop i, outs.drop i))).map
    (fun x => (pyReplace x.1 ['_'] [], pyReplace x.2 ['_'] []))).dedup

/-- Source `prefix_suffix_rules_get(lemma, form)`: segments via `alignprs`, then
builds the suffix-rule ladder from `root+suffix+">"` on both sides and the
prefix-rule ladder from `"<"+prefix` on both sides (the source guards the
prefix rules with `len(lp) >= 0 or len(fp) >= 0`, which is always true and
is kept verbatim).  Returns (prefix rules, suffix rules). -/
def prefix_suffix_rules_get (lem form : Str) : List (Str × Str) × List (Str × Str) :=
  let parts := alignprs lem form
  let lp := parts.1
  let lr := parts.2.1
  let ls := parts.2.2.1
  let fp := parts.2.2.2.1
  let fr := parts.2.2.2.2.1
  let fs := parts.2.2.2.2.2
  let srules := generate_rules (lr ++ ls ++ ['>']) (fr ++ fs ++ ['>'])
  let prules :=
    if lp.length ≥ 0 ∨ fp.length ≥ 0 then generate_rules ('<' :: lp) ('<' :: fp) else []
  (prules, srules)

/-- A rule store: per-MSD association list from (input_pattern,
output_pattern) rules to frequency counts. -/
abbrev RuleStore := List (Str × List ((Str × Str) × Nat))

/-- The key of the suffix-rule selection in `apply_best_rule`:
`(len(x[0]), x[2], len(x[1]))` compared lexicographically — input-pattern
length, then frequency, then output-pattern length. -/
def suffKey (e : (Str × Str) × Nat) : Lex (Nat × Lex (Nat × Nat)) :=
  toLex (e.1.1.length, toLex (e.2, e.1.2.length))

/-- The key of the prefix-rule selection in `apply_best_rule`: the frequency
alone. -/
def prefKey (e : (Str × Str) × Nat) : Nat := e.2

/-- Source `apply_best_rule(lemma, msd, allprules, allsrules)`: if `msd` occurs in
neither store, return the lemma unchanged.  Otherwise wrap the lemma as
`"<" + lemma + ">"`, apply the best applicable suffix rule (maximal
`suffKey`), then the best applicable prefix rule (maximal frequency), each
time substituting with Python `str.replace`, and finally strip all `<` and
`>` characters. -/
def apply_best_rule (lem msd : Str) (allprules allsrules : RuleStore) : Str :=
  let base0 := '<' :: lem ++ ['>']
  if alookup msd allprules = none ∧ alookup msd allsrules = none then lem
  else
    let base1 :=
      match alookup msd allsrules with
      | none => base0
      | some rules =>
        match rules.filter (fun e => isSubstr e.1.1 base0) with
        | [] => base0
        | r :: rs =>
          let best := pymax suffKey r rs
          pyReplace base0 best.1.1 best.1.2
    let base2 :=
      match alookup msd allprules with
      | none => base1
      | some rules =>
        match rules.filter (fun e => isSubstr e.1.1 base1) with
        | [] => base1
        | r :: rs =>
          let best := pymax prefKey r rs
          pyReplace base1 best.1.1 best.1.2
    pyReplace (pyReplace base2 ['<'] []) ['>'] []

/-- Correctness invariant of the memo cache: every stored entry is the
prefix-independent alignment fragment and incremental cost of its key pair
of remaining suffixes. -/
def cacheOK (ic dc sc : ℚ) (cache : Cache) : Prop :=
  ∀ e ∈ cache, e.2 = lrecPure ic dc sc e.1.1 e.1.2

/-- Source `numleadingsyms(s, symbol)`. -/
def numleadingsyms (s : Str) (symbol : Char) : Nat := s.length - (pyLstrip symbol s).length

/-- Source `numtrailingsyms(s, symbol)` (via Python `rstrip`). -/
def numtrailingsyms (s : Str) (symbol : Char) : Nat :=
  s.length - (s.reverse.dropWhile (· = symbol)).reverse.length

/-! ### Basic facts about the list-level primitives -/

theorem isPrefixOf_iff {l s : Str} : l.isPrefixOf s = true ↔ ∃ u, s = l ++ u := by
  induction l generalizing s with
  | nil => simp [List.isPrefixOf]
  | cons a as ih =>
    cases s with
    | nil => simp [List.isPrefixOf]
    | cons b bs =>
      simp only [List.isPrefixOf, Bool.and_eq_true, beq_iff_eq, ih, List.cons_append,
        List.cons.injEq]
      constructor
      · rintro ⟨rfl, u, rfl⟩; exact ⟨u, rfl, rfl⟩
      · rintro ⟨u, rfl, rfl⟩; exact ⟨rfl, u, rfl⟩

theorem isPrefixOf_append (l u : Str) : l.isPrefixOf (l ++ u) = true :=
  isPrefixOf_iff.mpr ⟨u, rfl⟩

theorem isSubstr_iff {p s : Str} : isSubstr p s = true ↔ ∃ u v, s = u ++ p ++ v := by
  induction s with
  | nil =>
    simp only [isSubstr, isPrefixOf_iff]
    constructor
    · rintro ⟨u, hu⟩
      exact ⟨[], u, by simpa using hu⟩
    · rintro ⟨u, v, huv⟩
      rcases List.append_eq_nil.mp huv.symm with ⟨h1, h2⟩
      rcases List.append_eq_nil.mp h1 with ⟨rfl, rfl⟩
      exact ⟨[], by simp⟩
  | cons c rest ih =>
    simp only [isSubstr, Bool.or_eq_true, isPrefixOf_iff, ih]
    constructor
    · rintro (⟨u, hu⟩ | ⟨u, v, huv⟩)
      · exact ⟨[], u, by simpa using hu⟩
      · exact ⟨c :: u, v, by simp [huv]⟩
    · rintro ⟨u, v, huv⟩
      cases u with
      | nil => exact Or.inl ⟨v, by simpa using huv⟩
      | cons d u' =>
        have h2 : rest = u' ++ p ++ v := by
          have h3 := huv
          simp only [List.cons_append, List.cons.injEq] at h3
          exact h3.2
        exact Or.inr ⟨u', v, h2⟩

theorem isSubstr_of_parts (p u v s : Str) (h : s = u ++ p ++ v) : isSubstr p s = true :=
  isSubstr_iff.mpr ⟨u, v, h⟩

theorem pymax_mem {α κ : Type} [LinearOrder κ] (f : α → κ) (b : α) (l : List α) :
    pymax f b l ∈ b :: l := by
  induction l generalizing b with
  | nil => simp [pymax]
  | cons x xs ih =>
    rw [pymax]
    rcases List.mem_cons.mp (ih (if f b < f x then x else b)) with h1 | h2
    · rw [h1]; split <;> simp
    · simp [List.mem_cons.mpr (Or.inr h2)]

theorem pymax_le {α κ : Type} [LinearOrder κ] (f : α → κ) (b : α) (l : List α) :
    ∀ y ∈ b :: l, f y ≤ f (pymax f b l) := by
  induction l generalizing b with
  | nil => intro y hy; simp at hy; simp [pymax, hy]
  | cons x xs ih =>
    intro y hy
    rw [pymax]
    have hb : f b ≤ f (pymax f (if f b < f x then x else b) xs) := by
      rcases le_or_lt (f x) (f b) with h | h
      · rw [if_neg (not_lt.mpr h)]; exact ih b b (by simp)
      · rw [if_pos h]; exact le_trans h.le (ih x x (by simp))
    have hx : f x ≤ f (pymax f (if f b < f x then x else b) xs) := by
      rcases le_or_lt (f x) (f b) with h | h
      · rw [if_neg (not_lt.mpr h)]; exact le_trans h (ih b b (by simp))
      · rw [if_pos h]; exact ih x x (by simp)
    rcases List.mem_cons.mp hy with rfl | hy'
    · exact hb
    rcases List.mem_cons.mp hy' with rfl | hy''
    · exact hx
    · exact ih _ y (List.mem_cons_of_mem _ hy'')

theorem min3q_cases (x y z : Str × Str × ℚ) :
    min3q x y z = x ∨ min3q x y z = y ∨ min3q x y z = z := by
  unfold min3q; split_ifs <;> simp

theorem min3q_cost_le (x y z : Str × Str × ℚ) :
    (min3q x y z).2.2 ≤ x.2.2 ∧ (min3q x y z).2.2 ≤ y.2.2 ∧ (min3q x y z).2.2 ≤ z.2.2 := by
  unfold min3q
  split_ifs with h1 h2
  · exact ⟨le_rfl, h1.1, h1.2⟩
  · rcases not_and_or.mp h1 with h | h
    · exact ⟨le_of_lt (not_le.mp h), le_rfl, h2⟩
    · exact ⟨le_trans h2 (le_of_lt (not_le.mp h)), le_rfl, h2⟩
  · rcases not_and_or.mp h1 with h | h
    · exact ⟨le_trans (le_of_lt (not_le.mp h2)) (le_of_lt (not_le.mp h)), le_of_lt (not_le.mp h2),
        le_rfl⟩
    · exact ⟨le_of_lt (not_le.mp h), le_of_lt (not_le.mp h2), le_rfl⟩

theorem min3q_comp (u v : Str) (q : ℚ) (a₁ b₁ : Str) (c₁ : ℚ) (a₂ b₂ : Str) (c₂ : ℚ)
    (a₃ b₃ : Str) (c₃ : ℚ) :
    min3q (u ++ a₁, v ++ b₁, q + c₁) (u ++ a₂, v ++ b₂, q + c₂) (u ++ a₃, v ++ b₃, q + c₃) =
      (u ++ (min3q (a₁, b₁, c₁) (a₂, b₂, c₂) (a₃, b₃, c₃)).1,
        v ++ (min3q (a₁, b₁, c₁) (a₂, b₂, c₂) (a₃, b₃, c₃)).2.1,
        q + (min3q (a₁, b₁, c₁) (a₂, b₂, c₂) (a₃, b₃, c₃)).2.2) := by
  unfold min3q
  simp only [add_le_add_iff_left]
  split_ifs <;> rfl

/-! ### Unfolding equations for the fuel-driven `pyReplace` and `occCount` -/

theorem pyReplaceAux_congr (old new : Str) (ho : old ≠ []) :
    ∀ f₁ f₂ s, s.length ≤ f₁ → s.length ≤ f₂ →
      pyReplaceAux old new f₁ s = pyReplaceAux old new f₂ s := by
  intro f₁
  induction f₁ with
  | zero =>
    intro f₂ s h1 _
    have : s = [] := List.length_eq_zero.mp (Nat.le_zero.mp h1)
    subst this
    cases f₂ <;> simp [pyReplaceAux]
  | succ f ih =>
    intro f₂ s h1 h2
    cases s with
    | nil => cases f₂ <;> simp [pyReplaceAux]
    | cons c rest =>
      cases f₂ with
      | zero => simp at h2
      | succ f₂' =>
        simp only [pyReplaceAux]
        have hlen : 1 ≤ old.length := by
          cases old with
          | nil => exact absurd rfl ho
          | cons _ _ => simp
        simp only [List.length_cons] at h1 h2
        by_cases hp : old.isPrefixOf (c :: rest)
        · rw [if_pos hp, if_pos hp]
          congr 1
          apply ih
          · simp only [List.length_drop, List.length_cons]; omega
          · simp only [List.length_drop, List.length_cons]; omega
        · rw [if_neg hp, if_neg hp]
          congr 1
          apply ih
          · omega
          · omega

theorem pyReplace_nil (old new : Str) (ho : old ≠ []) : pyReplace [] old new = [] := by
  cases old with
  | nil => exact absurd rfl ho
  | cons o os => rfl

theorem pyReplace_cons (old new : Str) (ho : old ≠ []) (c : Char) (rest : Str) :
    pyReplace (c :: rest) old new =
      if old.isPrefixOf (c :: rest) then
        new ++ pyReplace ((c :: rest).drop old.length) old new
      else c :: pyReplace rest old new := by
  cases old with
  | nil => exact absurd rfl ho
  | cons o os =>
    show pyReplaceAux (o :: os) new (rest.length + 1) (c :: rest) = _
    simp only [pyReplaceAux]
    by_cases hp : (o :: os).isPrefixOf (c :: rest)
    · rw [if_pos hp, if_pos hp]
      congr 1
      apply pyReplaceAux_congr _ _ ho
      · simp only [List.length_drop, List.length_cons]; omega
      · exact le_rfl
    · rw [if_neg hp, if_neg hp]
      rfl

theorem pyReplace_append_self (old new u : Str) (ho : old ≠ []) :
    pyReplace (old ++ u) old new = new ++ pyReplace u old new := by
  obtain ⟨o, os, rfl⟩ := List.exists_cons_of_ne_nil ho
  rw [List.cons_append, pyReplace_cons _ _ ho]
  rw [if_pos (by simpa using isPrefixOf_append (o :: os) u)]
  congr 2
  simpa using List.drop_left (o :: os) u

theorem occCountAux_congr (old : Str) (ho : old ≠ []) :
    ∀ f₁ f₂ s, s.length ≤ f₁ → s.length ≤ f₂ →
      occCountAux old f₁ s = occCountAux old f₂ s := by
  intro f₁
  induction f₁ with
  | zero =>
    intro f₂ s h1 _
    have : s = [] := List.length_eq_zero.mp (Nat.le_zero.mp h1)
    subst this
    cases f₂ <;> simp [occCountAux]
  | succ f ih =>
    intro f₂ s h1 h2
    cases s with
    | nil => cases f₂ <;> simp [occCountAux]
    | cons c rest =>
      cases f₂ with
      | zero => simp at h2
      | succ f₂' =>
        simp only [occCountAux]
        have hlen : 1 ≤ old.length := by
          cases old with
          | nil => exact absurd rfl ho
          | cons _ _ => simp
        simp only [List.length_cons] at h1 h2
        by_cases hp : old.isPrefixOf (c :: rest)
        · rw [if_pos hp, if_pos hp]
          congr 1
          apply ih
          · simp only [List.length_drop, List.length_cons]; omega
          · simp only [List.length_drop, List.length_cons]; omega
        · rw [if_neg hp, if_neg hp]
          apply ih
          · omega
          · omega

theorem occCount_nil (old : Str) (ho : old ≠ []) : occCount [] old = 0 := by
  cases old with
  | nil => exact absurd rfl ho
  | cons o os => rfl

theorem occCount_cons (old : Str) (ho : old ≠ []) (c : Char) (rest : Str) :
    occCount (c :: rest) old =
      if old.isPrefixOf (c :: rest) then 1 + occCount ((c :: rest).drop old.length) old
      else occCount rest old := by
  cases old with
  | nil => exact absurd rfl ho
  | cons o os =>
    show occCountAux (o :: os) (rest.length + 1) (c :: rest) = _
    simp only [occCountAux]
    by_cases hp : (o :: os).isPrefixOf (c :: rest)
    · rw [if_pos hp, if_pos hp]
      congr 1
      apply occCountAux_congr _ ho
      · simp only [List.length_drop, List.length_cons]; omega
      · exact le_rfl
    · rw [if_neg hp, if_neg hp]
      rfl

theorem pyReplace_of_occCount_zero (old new : Str) :
    ∀ s, occCount s old = 0 → pyReplace s old new = s := by
  by_cases ho : old = []
  · subst ho; intro s hs; simp [occCount] at hs
  · intro s
    have main : ∀ n s, s.length ≤ n → occCount s old = 0 → pyReplace s old new = s := by
      intro n
      induction n with
      | zero =>
        intro s h1 _
        have : s = [] := List.length_eq_zero.mp (Nat.le_zero.mp h1)
        subst this
        exact pyReplace_nil _ _ ho
      | succ n ih =>
        intro s h1 hz
        cases s with
        | nil => exact pyReplace_nil _ _ ho
        | cons c rest =>
          rw [occCount_cons _ ho] at hz
          rw [pyReplace_cons _ _ ho]
          by_cases hp : old.isPrefixOf (c :: rest)
          · rw [if_pos hp] at hz; omega
          · rw [if_neg hp] at hz
            rw [if_neg hp]
            congr 1
            apply ih
            · simp only [List.length_cons] at h1; omega
            · exact hz
    exact main s.length s le_rfl

theorem pyReplace_self (s old : Str) : pyReplace s old old = s := by
  by_cases ho : old = []
  · subst ho
    show ([] : Str) ++ s.flatMap (fun c => c :: []) = s
    simp
  · have main : ∀ n s, s.length ≤ n → pyReplace s old old = s := by
      intro n
      induction n with
      | zero =>
        intro s h1
        have : s = [] := List.length_eq_zero.mp (Nat.le_zero.mp h1)
        subst this
        exact pyReplace_nil _ _ ho
      | succ n ih =>
        intro s h1
        cases s with
        | nil => exact pyReplace_nil _ _ ho
        | cons c rest =>
          rw [pyReplace_cons _ _ ho]
          by_cases hp : old.isPrefixOf (c :: rest)
          · rw [if_pos hp]
            obtain ⟨u, hu⟩ := isPrefixOf_iff.mp hp
            have hol : 1 ≤ old.length := by
              cases old with
              | nil => exact absurd rfl ho
              | cons _ _ => simp
            have hlu : u.length ≤ n := by
              have hc : (c :: rest).length = old.length + u.length := by simp [hu]
              simp only [List.length_cons] at hc h1
              omega
            rw [hu, List.drop_left, ih u hlu]
          · rw [if_neg hp]
            congr 1
            apply ih
            simp only [List.length_cons] at h1
            omega
    exact main s.length s le_rfl

theorem pyReplace_single_char (c : Char) :
    ∀ s, pyReplace s [c] [] = s.filter (fun x => x ≠ c) := by
  have ho : ([c] : Str) ≠ [] := by simp
  intro s
  induction s with
  | nil => rw [pyReplace_nil _ _ ho]; rfl
  | cons d rest ih =>
    rw [pyReplace_cons _ _ ho]
    by_cases hdc : c = d
    · subst hdc
      rw [if_pos (by simp [List.isPrefixOf])]
      simpa using ih
    · rw [if_neg (by simp [List.isPrefixOf, hdc])]
      simp [List.filter_cons, Ne.symm hdc, ih]

/-! ### The memoized recursion computes the pure recursion -/

theorem lrecPure_nil (ic dc sc : ℚ) (tr : Str) :
    lrecPure ic dc sc [] tr = (List.replicate tr.length '_', tr, (tr.length : ℚ)) := rfl

theorem lrecPure_cons_nil (ic dc sc : ℚ) (a : Char) (sr : Str) :
    lrecPure ic dc sc (a :: sr) [] =
      (a :: sr, List.replicate (a :: sr).length '_', ((a :: sr).length : ℚ)) := rfl

theorem lrecPure_cons_cons (ic dc sc : ℚ) (a b : Char) (sr tr : Str) :
    lrecPure ic dc sc (a :: sr) (b :: tr) =
      min3q
        (a :: (lrecPure ic dc sc sr tr).1, b :: (lrecPure ic dc sc sr tr).2.1,
          (if a = b then 0 else sc) + (lrecPure ic dc sc sr tr).2.2)
        ('_' :: (lrecPure ic dc sc (a :: sr) tr).1, b :: (lrecPure ic dc sc (a :: sr) tr).2.1,
          ic + (lrecPure ic dc sc (a :: sr) tr).2.2)
        (a :: (lrecPure ic dc sc sr (b :: tr)).1, '_' :: (lrecPure ic dc sc sr (b :: tr)).2.1,
          dc + (lrecPure ic dc sc sr (b :: tr)).2.2) := rfl

theorem alookup_mem {α β : Type} [DecidableEq α] {k : α} {v : β} :
    ∀ {l : List (α × β)}, alookup k l = some v → (k, v) ∈ l := by
  intro l
  induction l with
  | nil => simp [alookup]
  | cons e rest ih =>
    simp only [alookup]
    by_cases he : e.1 = k
    · rw [if_pos he]
      intro h
      have hv : v = e.2 := (Option.some.inj h).symm
      exact List.mem_cons.mpr (Or.inl (by rw [hv, ← he]))
    · rw [if_neg he]
      exact fun h => List.mem_cons_of_mem _ (ih h)

theorem lrecNM_eq_pure (ic dc sc : ℚ) :
    ∀ sr tr sp tp cost, lrecNM ic dc sc sp tp sr tr cost =
      (sp ++ (lrecPure ic dc sc sr tr).1, tp ++ (lrecPure ic dc sc sr tr).2.1,
        cost + (lrecPure ic dc sc sr tr).2.2) := by
  intro sr
  induction sr with
  | nil =>
    intro tr sp tp cost
    simp only [lrecNM, lrecPure_nil]
  | cons a sr' ihs =>
    intro tr
    induction tr with
    | nil =>
      intro sp tp cost
      simp only [lrecNM, lrecPure_cons_nil]
    | cons b tr' iht =>
      intro sp tp cost
      rw [show lrecNM ic dc sc sp tp (a :: sr') (b :: tr') cost =
        min3q (lrecNM ic dc sc (sp ++ [a]) (tp ++ [b]) sr' tr'
            (cost + if a = b then 0 else sc))
          (lrecNM ic dc sc (sp ++ ['_']) (tp ++ [b]) (a :: sr') tr' (cost + ic))
          (lrecNM ic dc sc (sp ++ [a]) (tp ++ ['_']) sr' (b :: tr') (cost + dc)) from by
          simp only [lrecNM]]
      rw [ihs tr' (sp ++ [a]) (tp ++ [b]) _, iht (sp ++ ['_']) (tp ++ [b]) _,
        ihs (b :: tr') (sp ++ [a]) (tp ++ ['_']) _]
      simp only [← List.append_cons, add_assoc]
      rw [lrecPure_cons_cons, ← min3q_comp]

theorem lrecM_correct (ic dc sc : ℚ) :
    ∀ fuel sr tr sp tp cost cache, sr.length + tr.length < fuel → cacheOK ic dc sc cache →
      (lrecMAux ic dc sc fuel sp tp sr tr cost cache).1 =
        (sp ++ (lrecPure ic dc sc sr tr).1, tp ++ (lrecPure ic dc sc sr tr).2.1,
          cost + (lrecPure ic dc sc sr tr).2.2) ∧
      cacheOK ic dc sc (lrecMAux ic dc sc fuel sp tp sr tr cost cache).2 := by
  intro fuel
  induction fuel with
  | zero =>
    intro sr tr sp tp cost cache hsize hcache
    omega
  | succ n ih =>
    intro sr tr sp tp cost cache hsize hcache
    simp only [lrecMAux]
    cases hlook : alookup ((sr, tr)) cache with
    | some e =>
      have he : e = lrecPure ic dc sc sr tr := hcache _ (alookup_mem hlook)
      subst he
      exact ⟨rfl, hcache⟩
    | none =>
      cases sr with
      | nil =>
        refine ⟨by simp [lrecPure_nil], ?_⟩
        intro en hen
        rcases List.mem_cons.mp hen with rfl | hmem
        · simp [lrecPure_nil]
        · exact hcache _ hmem
      | cons a sr' =>
        cases tr with
        | nil =>
          refine ⟨by simp [lrecPure_cons_nil], ?_⟩
          intro en hen
          rcases List.mem_cons.mp hen with rfl | hmem
          · simp [lrecPure_cons_nil]
          · exact hcache _ hmem
        | cons b tr' =>
          simp only [List.length_cons] at hsize
          obtain ⟨h1a, h1b⟩ := ih sr' tr' (sp ++ [a]) (tp ++ [b])
            (cost + if a = b then 0 else sc) cache (by omega) hcache
          obtain ⟨h2a, h2b⟩ := ih (a :: sr') tr' (sp ++ ['_']) (tp ++ [b]) (cost + ic) _
            (by simp; omega) h1b
          obtain ⟨h3a, h3b⟩ := ih sr' (b :: tr') (sp ++ [a]) (tp ++ ['_']) (cost + dc) _
            (by simp; omega) h2b
          simp only [h1a, h2a, h3a]
          simp only [← List.append_cons, add_assoc]
          rw [min3q_comp]
          constructor
          · simp only [List.drop_left, add_sub_cancel_left, lrecPure_cons_cons]
          · intro en hen
            rcases List.mem_cons.mp hen with rfl | hmem
            · simp only [List.drop_left, add_sub_cancel_left, lrecPure_cons_cons]
            · exact h3b _ hmem

/-- The function `levenshtein` computes the pure (unmemoized, prefix-independent)
recursion. -/
theorem levenshtein_eq_pure (s t : Str) (ic dc sc : ℚ) :
    levenshtein s t ic dc sc = lrecPure ic dc sc s t := by
  obtain ⟨h, -⟩ := lrecM_correct ic dc sc (s.length + t.length + 1) s t [] [] 0 []
    (by omega) (by intro e he; simp at he)
  rw [levenshtein, h]
  simp

/-! ### Invariants of the pure alignment recursion -/

theorem min3q_pred (Q : Str × Str × ℚ → Prop) (x y z : Str × Str × ℚ)
    (hx : Q x) (hy : Q y) (hz : Q z) : Q (min3q x y z) := by
  rcases min3q_cases x y z with h | h | h <;> rw [h] <;> assumption

theorem filter_replicate_gap (n : Nat) :
    (List.replicate n '_').filter (fun x => x ≠ '_') = [] := by
  induction n with
  | zero => rfl
  | succ n ih => simp [List.replicate_succ, List.filter_cons, ih]

theorem filter_of_not_gap {l : Str} (h : '_' ∉ l) :
    l.filter (fun x => x ≠ '_') = l := by
  rw [List.filter_eq_self]
  intro a ha
  simp only [ne_eq, decide_not, Bool.not_eq_eq_eq_not, Bool.not_true, decide_eq_false_iff_not]
  exact fun hc => h (hc ▸ ha)

theorem lrecPure_length (ic dc sc : ℚ) :
    ∀ s t, (lrecPure ic dc sc s t).1.length = (lrecPure ic dc sc s t).2.1.length := by
  intro s
  induction s with
  | nil => intro t; simp [lrecPure_nil]
  | cons a sr ihs =>
    intro t
    induction t with
    | nil => simp [lrecPure_cons_nil]
    | cons b tr iht =>
      rw [lrecPure_cons_cons]
      apply min3q_pred (fun r => r.1.length = r.2.1.length)
      · simp [ihs tr]
      · simp [iht]
      · simp [ihs (b :: tr)]

theorem lrecPure_filter (ic dc sc : ℚ) :
    ∀ s t, '_' ∉ s → '_' ∉ t →
      (lrecPure ic dc sc s t).1.filter (fun x => x ≠ '_') = s ∧
      (lrecPure ic dc sc s t).2.1.filter (fun x => x ≠ '_') = t := by
  intro s
  induction s with
  | nil =>
    intro t hs ht
    rw [lrecPure_nil]
    exact ⟨filter_replicate_gap _, filter_of_not_gap ht⟩
  | cons a sr ihs =>
    intro t
    induction t with
    | nil =>
      intro hs ht
      rw [lrecPure_cons_nil]
      exact ⟨filter_of_not_gap hs, filter_replicate_gap _⟩
    | cons b tr iht =>
      intro hs ht
      have has : a ≠ '_' := fun h => hs (by simp [h])
      have hbt : b ≠ '_' := fun h => ht (by simp [h])
      have hs' : '_' ∉ sr := fun h => hs (List.mem_cons_of_mem _ h)
      have ht' : '_' ∉ tr := fun h => ht (List.mem_cons_of_mem _ h)
      rw [lrecPure_cons_cons]
      apply min3q_pred (fun r =>
        r.1.filter (fun x => x ≠ '_') = a :: sr ∧ r.2.1.filter (fun x => x ≠ '_') = b :: tr)
      · obtain ⟨h1, h2⟩ := ihs tr hs' ht'
        simp only [ne_eq, decide_not] at h1 h2
        constructor
        · simp [List.filter_cons, has, h1]
        · simp [List.filter_cons, hbt, h2]
      · obtain ⟨h1, h2⟩ := iht hs ht'
        simp only [ne_eq, decide_not] at h1 h2
        constructor
        · simpa [List.filter_cons] using h1
        · simp [List.filter_cons, hbt, h2]
      · obtain ⟨h1, h2⟩ := ihs (b :: tr) hs' ht
        simp only [ne_eq, decide_not] at h1 h2
        constructor
        · simp [List.filter_cons, has, h1]
        · simpa [List.filter_cons] using h2

theorem lrecPure_no2gap (ic dc sc : ℚ) :
    ∀ s t, '_' ∉ s → '_' ∉ t → ∀ i : Nat,
      ¬((lrecPure ic dc sc s t).1[i]? = some '_' ∧ (lrecPure ic dc sc s t).2.1[i]? = some '_') := by
  intro s
  induction s with
  | nil =>
    intro t hs ht i hcon
    rw [lrecPure_nil] at hcon
    exact ht (List.getElem?_mem hcon.2)
  | cons a sr ihs =>
    intro t
    induction t with
    | nil =>
      intro hs ht i hcon
      rw [lrecPure_cons_nil] at hcon
      exact hs (List.getElem?_mem hcon.1)
    | cons b tr iht =>
      intro hs ht
      have has : a ≠ '_' := fun h => hs (by simp [h])
      have hbt : b ≠ '_' := fun h => ht (by simp [h])
      have hs' : '_' ∉ sr := fun h => hs (List.mem_cons_of_mem _ h)
      have ht' : '_' ∉ tr := fun h => ht (List.mem_cons_of_mem _ h)
      rw [lrecPure_cons_cons]
      apply min3q_pred (fun r =>
        ∀ i : Nat, ¬(r.1[i]? = some '_' ∧ r.2.1[i]? = some '_'))
      · intro i hcon
        cases i with
        | zero => exact has (by simpa using hcon.1)
        | succ j => exact ihs tr hs' ht' j (by simpa using hcon)
      · intro i hcon
        cases i with
        | zero => exact hbt (by simpa using hcon.2)
        | succ j => exact iht hs ht' j (by simpa using hcon)
      · intro i hcon
        cases i with
        | zero => exact has (by simpa using hcon.1)
        | succ j => exact ihs (b :: tr) hs' ht j (by simpa using hcon)

theorem lrecPure_cost_nonneg (ic dc sc : ℚ) (hic : 0 ≤ ic) (hdc : 0 ≤ dc) (hsc : 0 ≤ sc) :
    ∀ s t, 0 ≤ (lrecPure ic dc sc s t).2.2 := by
  intro s
  induction s with
  | nil => intro t; rw [lrecPure_nil]; positivity
  | cons a sr ihs =>
    intro t
    induction t with
    | nil => rw [lrecPure_cons_nil]; positivity
    | cons b tr iht =>
      rw [lrecPure_cons_cons]
      apply min3q_pred (fun r => 0 ≤ r.2.2)
      · have := ihs tr
        split <;> simp <;> linarith
      · have := iht
        simp only
        linarith
      · have := ihs (b :: tr)
        simp only
        linarith

theorem lrecPure_cost_lb (sc : ℚ) (hsc : 0 ≤ sc) :
    ∀ s t, ((Nat.dist s.length t.length : ℕ) : ℚ) ≤ (lrecPure 1 1 sc s t).2.2 := by
  intro s
  induction s with
  | nil =>
    intro t
    rw [lrecPure_nil]
    simp [Nat.dist_zero_left]
  | cons a sr ihs =>
    intro t
    induction t with
    | nil =>
      rw [lrecPure_cons_nil]
      simp [Nat.dist_zero_right]
    | cons b tr iht =>
      rw [lrecPure_cons_cons]
      apply min3q_pred (fun r => ((Nat.dist (a :: sr).length (b :: tr).length : ℕ) : ℚ) ≤ r.2.2)
      · have h1 := ihs tr
        have hd : Nat.dist (a :: sr).length (b :: tr).length = Nat.dist sr.length tr.length := by
          simp [List.length_cons, Nat.dist_succ_succ]
        rw [hd]
        simp only
        split <;> linarith
      · have h2 := iht
        have hd : (Nat.dist (a :: sr).length (b :: tr).length : ℚ) ≤
            1 + (Nat.dist (a :: sr).length tr.length : ℚ) := by
          have : Nat.dist (a :: sr).length (b :: tr).length ≤
              1 + Nat.dist (a :: sr).length tr.length := by
            simp only [Nat.dist, List.length_cons]
            omega
          calc (Nat.dist (a :: sr).length (b :: tr).length : ℚ)
              ≤ ((1 + Nat.dist (a :: sr).length tr.length : ℕ) : ℚ) := by exact_mod_cast this
            _ = 1 + (Nat.dist (a :: sr).length tr.length : ℚ) := by push_cast; ring
        simp only
        linarith
      · have h3 := ihs (b :: tr)
        have hd : (Nat.dist (a :: sr).length (b :: tr).length : ℚ) ≤
            1 + (Nat.dist sr.length (b :: tr).length : ℚ) := by
          have : Nat.dist (a :: sr).length (b :: tr).length ≤
              1 + Nat.dist sr.length (b :: tr).length := by
            simp only [Nat.dist, List.length_cons]
            omega
          calc (Nat.dist (a :: sr).length (b :: tr).length : ℚ)
              ≤ ((1 + Nat.dist sr.length (b :: tr).length : ℕ) : ℚ) := by exact_mod_cast this
            _ = 1 + (Nat.dist sr.length (b :: tr).length : ℚ) := by push_cast; ring
        simp only
        linarith

theorem lrecPure_cost_self (sc : ℚ) (hsc : 0 ≤ sc) :
    ∀ s, (lrecPure 1 1 sc s s).2.2 = 0 := by
  intro s
  induction s with
  | nil => rw [lrecPure_nil]; simp
  | cons a sr ih =>
    have hnn : 0 ≤ (lrecPure 1 1 sc (a :: sr) (a :: sr)).2.2 :=
      lrecPure_cost_nonneg 1 1 sc (by norm_num) (by norm_num) hsc (a :: sr) (a :: sr)
    have hub : (lrecPure 1 1 sc (a :: sr) (a :: sr)).2.2 ≤
        (if a = a then (0 : ℚ) else sc) + (lrecPure 1 1 sc sr sr).2.2 := by
      rw [lrecPure_cons_cons]
      exact (min3q_cost_le _ _ _).1
    rw [if_pos rfl, ih, add_zero] at hub
    linarith

theorem lrecPure_cost_zero (sc : ℚ) (hsc : 0 < sc) :
    ∀ s t, (lrecPure 1 1 sc s t).2.2 = 0 → s = t := by
  have hnn := lrecPure_cost_nonneg 1 1 sc (by norm_num) (by norm_num) (le_of_lt hsc)
  intro s
  induction s with
  | nil =>
    intro t h
    rw [lrecPure_nil] at h
    have h' : ((t.length : ℕ) : ℚ) = 0 := h
    have : t.length = 0 := by exact_mod_cast h'
    rw [List.length_eq_zero.mp this]
  | cons a sr ihs =>
    intro t
    induction t with
    | nil =>
      intro h
      rw [lrecPure_cons_nil] at h
      simp only [List.length_cons] at h
      have : ((sr.length + 1 : ℕ) : ℚ) = 0 := by exact_mod_cast h
      have : sr.length + 1 = 0 := by exact_mod_cast this
      omega
    | cons b tr iht =>
      intro h
      rw [lrecPure_cons_cons] at h
      rcases min3q_cases
        (a :: (lrecPure 1 1 sc sr tr).1, b :: (lrecPure 1 1 sc sr tr).2.1,
          (if a = b then 0 else sc) + (lrecPure 1 1 sc sr tr).2.2)
        ('_' :: (lrecPure 1 1 sc (a :: sr) tr).1, b :: (lrecPure 1 1 sc (a :: sr) tr).2.1,
          1 + (lrecPure 1 1 sc (a :: sr) tr).2.2)
        (a :: (lrecPure 1 1 sc sr (b :: tr)).1, '_' :: (lrecPure 1 1 sc sr (b :: tr)).2.1,
          1 + (lrecPure 1 1 sc sr (b :: tr)).2.2) with hc | hc | hc
      · rw [hc] at h
        simp only at h
        have hsub : (if a = b then (0 : ℚ) else sc) = 0 ∧ (lrecPure 1 1 sc sr tr).2.2 = 0 := by
          have hite : 0 ≤ (if a = b then (0 : ℚ) else sc) := by
            split
            · exact le_rfl
            · exact le_of_lt hsc
          have := hnn sr tr
          constructor <;> linarith
        have hab : a = b := by
          by_contra hne
          rw [if_neg hne] at hsub
          exact absurd hsub.1 (ne_of_gt hsc)
        rw [hab, ihs tr hsub.2]
      · rw [hc] at h
        simp only at h
        have := hnn (a :: sr) tr
        linarith
      · rw [hc] at h
        simp only at h
        have := hnn sr (b :: tr)
        linarith

/-! ### Leading/trailing gap runs, slices, and rule-extraction helpers -/

theorem leadingGaps_eq (s : Str) :
    leadingGaps s = (s.takeWhile (fun x => x = '_')).length := by
  unfold leadingGaps pyLstrip
  have h := congrArg List.length (List.takeWhile_append_dropWhile (fun x => decide (x = '_')) s)
  simp only [List.length_append] at h
  omega

theorem leadingGaps_le (s : Str) : leadingGaps s ≤ s.length := by
  unfold leadingGaps
  omega

theorem trailingGaps_eq_leading_reverse (s : Str) : trailingGaps s = leadingGaps s.reverse := rfl

theorem trailingGaps_le (s : Str) : trailingGaps s ≤ s.length := by
  rw [trailingGaps_eq_leading_reverse]
  have := leadingGaps_le s.reverse
  simpa using this

theorem gap_of_lt_leadingGaps {s : Str} {i : Nat} (h : i < leadingGaps s) :
    s[i]? = some '_' := by
  rw [leadingGaps_eq] at h
  conv_lhs => rw [← List.takeWhile_append_dropWhile (fun x => decide (x = '_')) s]
  rw [List.getElem?_append_left h]
  rw [List.getElem?_eq_getElem h]
  have hmem := List.mem_takeWhile_imp
    (List.getElem_mem (l := s.takeWhile (fun x => decide (x = '_'))) (n := i) h)
  simpa using hmem

theorem gap_of_ge_trailingGaps {s : Str} {i : Nat} (h1 : s.length - trailingGaps s ≤ i)
    (h2 : i < s.length) : s[i]? = some '_' := by
  have hj : s.length - 1 - i < s.reverse.length := by
    simp only [List.length_reverse]
    omega
  have hrev : s.reverse[s.length - 1 - i]? = some '_' := by
    apply gap_of_lt_leadingGaps
    rw [← trailingGaps_eq_leading_reverse]
    have := trailingGaps_le s
    omega
  rw [List.getElem?_reverse (by simpa using hj)] at hrev
  have heq : s.length - 1 - (s.length - 1 - i) = i := by omega
  rwa [heq] at hrev

theorem gap_single_bound {s : Str} (h : ∃ c ∈ s, c ≠ '_') :
    leadingGaps s + trailingGaps s ≤ s.length := by
  obtain ⟨c, hc, hne⟩ := h
  obtain ⟨k, hk⟩ := List.mem_iff_getElem?.mp hc
  have hkl : k < s.length := by
    rcases List.getElem?_eq_some_iff.mp hk with ⟨hlt, -⟩
    exact hlt
  have h1 : leadingGaps s ≤ k := by
    by_contra hlt
    push_neg at hlt
    have hg := gap_of_lt_leadingGaps hlt
    rw [hk] at hg
    exact hne (Option.some.inj hg)
  have h2 : k < s.length - trailingGaps s := by
    by_contra hge
    push_neg at hge
    have hg := gap_of_ge_trailingGaps hge hkl
    rw [hk] at hg
    exact hne (Option.some.inj hg)
  have := trailingGaps_le s
  omega

theorem gap_mixed_bound {x y : Str} (hlen : x.length = y.length)
    (hno : ∀ i : Nat, ¬(x[i]? = some '_' ∧ y[i]? = some '_')) :
    leadingGaps x + trailingGaps y ≤ x.length := by
  by_contra hgt
  push_neg at hgt
  have hty := trailingGaps_le y
  have hlx := leadingGaps_le x
  have hi1 : x.length - trailingGaps y < leadingGaps x := by omega
  have hi2 : x.length - trailingGaps y < x.length := by omega
  have hg1 := gap_of_lt_leadingGaps hi1
  have hg2 : y[x.length - trailingGaps y]? = some '_' := by
    apply gap_of_ge_trailingGaps
    · omega
    · omega
  exact hno _ ⟨hg1, hg2⟩

theorem slice_recon (l : Str) (a b : Nat) (hab : a ≤ b) :
    pySlice l 0 a ++ pySlice l a b ++ l.drop b = l := by
  unfold pySlice
  simp only [List.drop_zero]
  rw [show l.take a = (l.take b).take a from by rw [List.take_take, min_eq_left hab]]
  rw [List.take_append_drop, List.take_append_drop]

theorem slice0_recon (l : Str) (b : Nat) : pySlice l 0 b ++ l.drop b = l := by
  unfold pySlice
  simp only [List.drop_zero]
  exact List.take_append_drop b l

theorem mem_generate_rules {ins outs : Str} {r : Str × Str} :
    r ∈ generate_rules ins outs ↔
      ∃ i, i < min ins.length outs.length ∧
        r = (pyReplace (ins.drop i) ['_'] [], pyReplace (outs.drop i) ['_'] []) := by
  unfold generate_rules
  rw [List.mem_dedup]
  simp only [List.mem_map, List.mem_range]
  constructor
  · rintro ⟨p, ⟨i, hi, rfl⟩, rfl⟩
    exact ⟨i, hi, rfl⟩
  · rintro ⟨i, hi, rfl⟩
    exact ⟨(ins.drop i, outs.drop i), ⟨i, hi, rfl⟩, rfl⟩

theorem strip_append_marker (w : Str) (c : Char) (hc : c ≠ '_') :
    pyReplace (w ++ [c]) ['_'] [] = pyReplace w ['_'] [] ++ [c] := by
  rw [pyReplace_single_char, pyReplace_single_char, List.filter_append]
  simp [List.filter_cons, hc]

/-- Replacing a pattern that ends in the unique `'>'` of the subject string:
the only occurrence is the final one, so Python's replace-all rewrites the
string's tail exactly once. -/
theorem pyReplace_unique_marker (q n : Str) (hq : '>' ∉ q) :
    ∀ w : Str, '>' ∉ w → pyReplace (w ++ (q ++ ['>'])) (q ++ ['>']) n = w ++ n := by
  have ho : q ++ ['>'] ≠ [] := by simp
  intro w
  induction w with
  | nil =>
    intro _
    simp only [List.nil_append]
    have h := pyReplace_append_self (q ++ ['>']) n [] ho
    rw [List.append_nil] at h
    rw [h, pyReplace_nil _ _ ho, List.append_nil]
  | cons c w' ih =>
    intro hw
    have hw' : '>' ∉ w' := fun h => hw (List.mem_cons_of_mem _ h)
    have hnp : ¬(q ++ ['>']).isPrefixOf (c :: (w' ++ (q ++ ['>']))) = true := by
      intro hp
      obtain ⟨v, hv⟩ := isPrefixOf_iff.mp hp
      have hL : (c :: (w' ++ (q ++ ['>'])))[q.length]? = some '>' := by
        rw [hv, List.getElem?_append_left (by simp)]
        exact List.getElem?_concat_length q '>'
      have hshape : c :: (w' ++ (q ++ ['>'])) = ((c :: w') ++ q) ++ ['>'] := by simp
      rw [hshape] at hL
      have hidx : q.length < ((c :: w') ++ q).length := by
        simp only [List.length_append, List.length_cons]
        omega
      rw [List.getElem?_append_left hidx] at hL
      rcases List.mem_append.mp (List.getElem?_mem hL) with h | h
      · exact hw h
      · exact hq h
    rw [List.cons_append, pyReplace_cons _ _ ho, if_neg hnp, ih hw', List.cons_append]

/-! ### Rule-shape helpers for the extraction claims -/

theorem srules_end_marker {x y : Str} {r : Str × Str}
    (hr : r ∈ generate_rules (x ++ ['>']) (y ++ ['>'])) :
    r.1.getLast? = some '>' ∧ r.2.getLast? = some '>' := by
  rw [mem_generate_rules] at hr
  obtain ⟨i, hi, rfl⟩ := hr
  simp only [List.length_append, List.length_cons, List.length_nil] at hi
  have hix : i ≤ x.length := by omega
  have hiy : i ≤ y.length := by omega
  rw [List.drop_append_of_le_length hix, List.drop_append_of_le_length hiy]
  rw [strip_append_marker _ _ (by decide), strip_append_marker _ _ (by decide)]
  exact ⟨List.getLast?_concat _, List.getLast?_concat _⟩

theorem strip_cons_marker (lp : Str) :
    pyReplace ('<' :: lp) ['_'] [] = '<' :: pyReplace lp ['_'] [] := by
  rw [pyReplace_single_char, pyReplace_single_char, List.filter_cons, if_pos (by decide)]

theorem prule0_starts_marker (lp fp : Str) :
    (pyReplace ('<' :: lp) ['_'] [], pyReplace ('<' :: fp) ['_'] []) ∈
      generate_rules ('<' :: lp) ('<' :: fp) ∧
    (pyReplace ('<' :: lp) ['_'] []).head? = some '<' ∧
    (pyReplace ('<' :: fp) ['_'] []).head? = some '<' := by
  refine ⟨mem_generate_rules.mpr ⟨0, by simp, by simp⟩, ?_, ?_⟩
  · rw [strip_cons_marker]; rfl
  · rw [strip_cons_marker]; rfl

/-! ### Helpers for the single-example round trip -/

theorem strip_take_drop (A : Str) (i : Nat) :
    pyReplace A ['_'] [] = pyReplace (A.take i) ['_'] [] ++ pyReplace (A.drop i) ['_'] [] := by
  rw [pyReplace_single_char, pyReplace_single_char, pyReplace_single_char, ← List.filter_append,
    List.take_append_drop]

theorem strip_drop_le (A : Str) (i : Nat) :
    (pyReplace (A.drop i) ['_'] []).length ≤ (pyReplace A ['_'] []).length := by
  rw [strip_take_drop A i, List.length_append]
  omega

theorem strip_drop_eq_of_length (A : Str) (i : Nat)
    (h : (pyReplace (A.drop i) ['_'] []).length = (pyReplace A ['_'] []).length) :
    pyReplace (A.drop i) ['_'] [] = pyReplace A ['_'] [] := by
  have hd := strip_take_drop A i
  have hlen := congrArg List.length hd
  rw [List.length_append] at hlen
  have hz : (pyReplace (A.take i) ['_'] []).length = 0 := by omega
  rw [hd, List.length_eq_zero.mp hz, List.nil_append]

theorem c4_suffix_rules_shape (A F : Str) {r : Str × Str}
    (hr : r ∈ generate_rules (A ++ ['>']) (F ++ ['>'])) :
    ∃ i, i ≤ A.length ∧ i ≤ F.length ∧
      r = (pyReplace (A.drop i) ['_'] [] ++ ['>'], pyReplace (F.drop i) ['_'] [] ++ ['>']) := by
  rw [mem_generate_rules] at hr
  obtain ⟨i, hi, rfl⟩ := hr
  simp only [List.length_append, List.length_cons, List.length_nil, lt_min_iff] at hi
  refine ⟨i, by omega, by omega, ?_⟩
  rw [List.drop_append_of_le_length (by omega), List.drop_append_of_le_length (by omega),
    strip_append_marker _ _ (by decide), strip_append_marker _ _ (by decide)]

theorem c4_rule0_mem (A F : Str) :
    (pyReplace A ['_'] [] ++ ['>'], pyReplace F ['_'] [] ++ ['>']) ∈
      generate_rules (A ++ ['>']) (F ++ ['>']) := by
  apply mem_generate_rules.mpr
  refine ⟨0, ?_, ?_⟩
  · simp only [List.length_append, List.length_cons, List.length_nil, lt_min_iff]
    omega
  · rw [List.drop_zero, List.drop_zero,
      strip_append_marker _ _ (by decide), strip_append_marker _ _ (by decide)]

theorem c4_rule_applicable (A lem : Str) (i : Nat) (hfA : pyReplace A ['_'] [] = lem) :
    isSubstr (pyReplace (A.drop i) ['_'] [] ++ ['>']) ('<' :: lem ++ ['>']) = true := by
  have hdec := strip_take_drop A i
  rw [hfA] at hdec
  apply isSubstr_of_parts _ ('<' :: pyReplace (A.take i) ['_'] []) []
  simp [hdec]

theorem suffKey_mono (a b : (Str × Str) × Nat) (h1 : a.1.1.length ≤ b.1.1.length)
    (h2 : a.2 = b.2) (h3 : a.1.2.length ≤ b.1.2.length) : suffKey a ≤ suffKey b := by
  unfold suffKey
  rcases lt_or_eq_of_le h1 with h | h
  · exact Prod.Lex.le_iff (a.1.1.length, toLex (a.2, a.1.2.length))
      (b.1.1.length, toLex (b.2, b.1.2.length)) |>.mpr (Or.inl h)
  · exact Prod.Lex.le_iff (a.1.1.length, toLex (a.2, a.1.2.length))
      (b.1.1.length, toLex (b.2, b.1.2.length)) |>.mpr
      (Or.inr ⟨h, Prod.Lex.le_iff (a.2, a.1.2.length) (b.2, b.1.2.length) |>.mpr
        (Or.inr ⟨h2, h3⟩)⟩)

theorem suffKey_eq_parts {a b : (Str × Str) × Nat} (h : suffKey a = suffKey b) :
    a.1.1.length = b.1.1.length ∧ a.2 = b.2 ∧ a.1.2.length = b.1.2.length := by
  unfold suffKey at h
  rw [toLex_inj] at h
  have h1 : a.1.1.length = b.1.1.length := congrArg Prod.fst h
  have h2 := congrArg Prod.snd h
  dsimp only at h2
  rw [toLex_inj] at h2
  exact ⟨h1, congrArg Prod.fst h2, congrArg Prod.snd h2⟩

theorem c4_best_suffix (lem form A F : Str)
    (hfA : pyReplace A ['_'] [] = lem) (hfF : pyReplace F ['_'] [] = form)
    (r : (Str × Str) × Nat) (rs : List ((Str × Str) × Nat))
    (hmemsl : ∀ e ∈ r :: rs, ∃ ρ ∈ generate_rules (A ++ ['>']) (F ++ ['>']), e = (ρ, 1))
    (hrule0 : ((lem ++ ['>'], form ++ ['>']), 1) ∈ r :: rs) :
    pymax suffKey r rs = ((lem ++ ['>'], form ++ ['>']), 1) := by
  obtain ⟨ρ, hρ, hbe⟩ := hmemsl _ (pymax_mem suffKey r rs)
  obtain ⟨i, hiA, hiF, hρeq⟩ := c4_suffix_rules_shape A F hρ
  have h1 : (pyReplace (A.drop i) ['_'] []).length ≤ lem.length := by
    rw [← hfA]; exact strip_drop_le A i
  have h2 : (pyReplace (F.drop i) ['_'] []).length ≤ form.length := by
    rw [← hfF]; exact strip_drop_le F i
  have hup : suffKey (pymax suffKey r rs) ≤ suffKey ((lem ++ ['>'], form ++ ['>']), 1) := by
    rw [hbe, hρeq]
    apply suffKey_mono
    · simp only [List.length_append, List.length_cons, List.length_nil]
      omega
    · rfl
    · simp only [List.length_append, List.length_cons, List.length_nil]
      omega
  have hlow := pymax_le suffKey r rs _ hrule0
  have hkey := le_antisymm hup hlow
  rw [hbe, hρeq] at hkey ⊢
  obtain ⟨hk1, -, hk3⟩ := suffKey_eq_parts hkey
  simp only [List.length_append, List.length_cons, List.length_nil] at hk1 hk3
  have hA' : pyReplace (A.drop i) ['_'] [] = lem := by
    rw [← hfA]
    exact strip_drop_eq_of_length A i (by rw [hfA]; omega)
  have hF' : pyReplace (F.drop i) ['_'] [] = form := by
    rw [← hfF]
    exact strip_drop_eq_of_length F i (by rw [hfF]; omega)
  rw [hA', hF']

theorem filter_ne_of_not_mem {l : Str} {c : Char} (h : c ∉ l) :
    l.filter (fun x => x ≠ c) = l := by
  rw [List.filter_eq_self]
  intro a ha
  simp only [ne_eq, decide_not, Bool.not_eq_eq_eq_not, Bool.not_true, decide_eq_false_iff_not]
  exact fun hc => h (hc ▸ ha)

theorem alignprs_unfold (lem form : Str) :
    alignprs lem form =
      (pySlice (levenshtein lem form 1 1 (11 / 10)).1 0
          (max (leadingGaps (levenshtein lem form 1 1 (11 / 10)).1)
            (leadingGaps (levenshtein lem form 1 1 (11 / 10)).2.1)),
        pySlice (levenshtein lem form 1 1 (11 / 10)).1
          (max (leadingGaps (levenshtein lem form 1 1 (11 / 10)).1)
            (leadingGaps (levenshtein lem form 1 1 (11 / 10)).2.1))
          ((levenshtein lem form 1 1 (11 / 10)).1.length -
            max (trailingGaps (levenshtein lem form 1 1 (11 / 10)).1)
              (trailingGaps (levenshtein lem form 1 1 (11 / 10)).2.1)),
        (levenshtein lem form 1 1 (11 / 10)).1.drop
          ((levenshtein lem form 1 1 (11 / 10)).1.length -
            max (trailingGaps (levenshtein lem form 1 1 (11 / 10)).1)
              (trailingGaps (levenshtein lem form 1 1 (11 / 10)).2.1)),
        pySlice (levenshtein lem form 1 1 (11 / 10)).2.1 0
          (max (leadingGaps (levenshtein lem form 1 1 (11 / 10)).1)
            (leadingGaps (levenshtein lem form 1 1 (11 / 10)).2.1)),
        pySlice (levenshtein lem form 1 1 (11 / 10)).2.1
          (max (leadingGaps (levenshtein lem form 1 1 (11 / 10)).1)
            (leadingGaps (levenshtein lem form 1 1 (11 / 10)).2.1))
          ((levenshtein lem form 1 1 (11 / 10)).1.length -
            max (trailingGaps (levenshtein lem form 1 1 (11 / 10)).1)
              (trailingGaps (levenshtein lem form 1 1 (11 / 10)).2.1)),
        (levenshtein lem form 1 1 (11 / 10)).2.1.drop
          ((levenshtein lem form 1 1 (11 / 10)).1.length -
            max (trailingGaps (levenshtein lem form 1 1 (11 / 10)).1)
              (trailingGaps (levenshtein lem form 1 1 (11 / 10)).2.1))) := rfl

/-! ### Claims -/

set_option maxHeartbeats 2000000 in
/-- C2 counterexample: `prefix_suffix_rules_get("a", "ba")` produces the
prefix rule `("", "b")` (from ladder offset 1), whose input pattern does not
start with `'<'` — prefix rules at positive offsets drop the anchor. -/
theorem c2_counterexample :
    ((([] : Str), (['b'] : Str)) ∈ (prefix_suffix_rules_get ['a'] ['b', 'a']).1) ∧
    ¬(([] : Str).head? = some '<') := by
  constructor
  · decide
  · decide

/-- C2 amended: every suffix rule's input and output pattern end with `'>'`,
and the offset-0 prefix rule (the full `"<"+prefix` pair) is generated and
starts with `'<'` on both sides; but deeper prefix rules (ladder offsets at
least 1) need not carry the `'<'` anchor. -/
theorem c2_amended_rule_anchoring (lem form : Str) :
    (∀ r ∈ (prefix_suffix_rules_get lem form).2,
        r.1.getLast? = some '>' ∧ r.2.getLast? = some '>') ∧
    (∃ r ∈ (prefix_suffix_rules_get lem form).1,
        r.1.head? = some '<' ∧ r.2.head? = some '<') := by
  constructor
  · intro r hr
    unfold prefix_suffix_rules_get at hr
    dsimp only at hr
    exact srules_end_marker hr
  · unfold prefix_suffix_rules_get
    dsimp only
    rw [if_pos (Or.inl (Nat.zero_le _))]
    obtain ⟨hmem, h1, h2⟩ := prule0_starts_marker (alignprs lem form).1 (alignprs lem form).2.2.2.1
    exact ⟨_, hmem, h1, h2⟩

theorem c2_amended_rule_anchoring_witness :
    (∀ r ∈ (prefix_suffix_rules_get ['a'] ['b', 'a']).2,
        r.1.getLast? = some '>' ∧ r.2.getLast? = some '>') ∧
    (∃ r ∈ (prefix_suffix_rules_get ['a'] ['b', 'a']).1,
        r.1.head? = some '<' ∧ r.2.head? = some '<') :=
  c2_amended_rule_anchoring ['a'] ['b', 'a']

/-- C3 counterexample: for the empty lemma against form `"a"` the slice
boundaries overlap (`lspace = tspace = 1` on an alignment of length 1), so
the six parts of `alignprs` duplicate material and do not concatenate back
to the aligned strings. -/
theorem c3_counterexample :
    ¬((alignprs [] ['a']).1 ++ (alignprs [] ['a']).2.1 ++ (alignprs [] ['a']).2.2.1 =
        (levenshtein [] ['a'] 1 1 (11 / 10)).1) := by
  decide

/-- C3 amended: for gap-free inputs that are both empty or both nonempty
(one-sidedly empty inputs make the slices overlap), the six parts returned
by `alignprs` reconstruct the two aligned strings of
`levenshtein(lemma, form, substcost=1.1)` exactly. -/
theorem c3_amended_segmentation (lem form : Str) (hs : '_' ∉ lem) (ht : '_' ∉ form)
    (hne : lem = [] ↔ form = []) :
    (alignprs lem form).1 ++ (alignprs lem form).2.1 ++ (alignprs lem form).2.2.1 =
      (levenshtein lem form 1 1 (11 / 10)).1 ∧
    (alignprs lem form).2.2.2.1 ++ (alignprs lem form).2.2.2.2.1 ++
        (alignprs lem form).2.2.2.2.2 =
      (levenshtein lem form 1 1 (11 / 10)).2.1 := by
  by_cases hl : lem = []
  · have hf : form = [] := hne.mp hl
    subst hl
    subst hf
    exact ⟨by decide, by decide⟩
  · have hfne : form ≠ [] := fun h => hl (hne.mpr h)
    have hpure := levenshtein_eq_pure lem form 1 1 (11 / 10)
    have hget : alignprs lem form =
        (pySlice (levenshtein lem form 1 1 (11 / 10)).1 0
            (max (leadingGaps (levenshtein lem form 1 1 (11 / 10)).1)
              (leadingGaps (levenshtein lem form 1 1 (11 / 10)).2.1)),
          pySlice (levenshtein lem form 1 1 (11 / 10)).1
            (max (leadingGaps (levenshtein lem form 1 1 (11 / 10)).1)
              (leadingGaps (levenshtein lem form 1 1 (11 / 10)).2.1))
            ((levenshtein lem form 1 1 (11 / 10)).1.length -
              max (trailingGaps (levenshtein lem form 1 1 (11 / 10)).1)
                (trailingGaps (levenshtein lem form 1 1 (11 / 10)).2.1)),
          (levenshtein lem form 1 1 (11 / 10)).1.drop
            ((levenshtein lem form 1 1 (11 / 10)).1.length -
              max (trailingGaps (levenshtein lem form 1 1 (11 / 10)).1)
                (trailingGaps (levenshtein lem form 1 1 (11 / 10)).2.1)),
          pySlice (levenshtein lem form 1 1 (11 / 10)).2.1 0
            (max (leadingGaps (levenshtein lem form 1 1 (11 / 10)).1)
              (leadingGaps (levenshtein lem form 1 1 (11 / 10)).2.1)),
          pySlice (levenshtein lem form 1 1 (11 / 10)).2.1
            (max (leadingGaps (levenshtein lem form 1 1 (11 / 10)).1)
              (leadingGaps (levenshtein lem form 1 1 (11 / 10)).2.1))
            ((levenshtein lem form 1 1 (11 / 10)).1.length -
              max (trailingGaps (levenshtein lem form 1 1 (11 / 10)).1)
                (trailingGaps (levenshtein lem form 1 1 (11 / 10)).2.1)),
          (levenshtein lem form 1 1 (11 / 10)).2.1.drop
            ((levenshtein lem form 1 1 (11 / 10)).1.length -
              max (trailingGaps (levenshtein lem form 1 1 (11 / 10)).1)
                (trailingGaps (levenshtein lem form 1 1 (11 / 10)).2.1))) := rfl
    rw [hget]
    dsimp only
    rw [hpure]
    set A := (lrecPure 1 1 (11 / 10) lem form).1 with hA
    set F := (lrecPure 1 1 (11 / 10) lem form).2.1 with hF
    have hlen : A.length = F.length := lrecPure_length 1 1 (11 / 10) lem form
    have hfil := lrecPure_filter 1 1 (11 / 10) lem form hs ht
    have hfA : A.filter (fun x => x ≠ '_') = lem := hfil.1
    have hfF : F.filter (fun x => x ≠ '_') = form := hfil.2
    have hno : ∀ i : Nat, ¬(A[i]? = some '_' ∧ F[i]? = some '_') :=
      lrecPure_no2gap 1 1 (11 / 10) lem form hs ht
    have nonGapA : ∃ c ∈ A, c ≠ '_' := by
      obtain ⟨c, crest, hc⟩ := List.exists_cons_of_ne_nil hl
      have hcmem : c ∈ A.filter (fun x => x ≠ '_') := by rw [hfA, hc]; simp
      obtain ⟨hmem, hpred⟩ := List.mem_filter.mp hcmem
      exact ⟨c, hmem, by simpa using hpred⟩
    have nonGapF : ∃ c ∈ F, c ≠ '_' := by
      obtain ⟨c, crest, hc⟩ := List.exists_cons_of_ne_nil hfne
      have hcmem : c ∈ F.filter (fun x => x ≠ '_') := by rw [hfF, hc]; simp
      obtain ⟨hmem, hpred⟩ := List.mem_filter.mp hcmem
      exact ⟨c, hmem, by simpa using hpred⟩
    have b1 := gap_single_bound nonGapA
    have b2 := gap_single_bound nonGapF
    have b3 := gap_mixed_bound hlen hno
    have b4 := gap_mixed_bound hlen.symm (fun i h => hno i ⟨h.2, h.1⟩)
    have hbound : max (leadingGaps A) (leadingGaps F) +
        max (trailingGaps A) (trailingGaps F) ≤ A.length := by
      rcases max_cases (leadingGaps A) (leadingGaps F) with ⟨hm, -⟩ | ⟨hm, -⟩ <;>
        rcases max_cases (trailingGaps A) (trailingGaps F) with ⟨hm2, -⟩ | ⟨hm2, -⟩ <;>
        rw [hm, hm2] <;> omega
    have htle := trailingGaps_le A
    constructor
    · exact slice_recon A _ _ (by omega)
    · exact slice_recon F _ _ (by omega)

theorem c3_amended_segmentation_witness :
    ('_' ∉ (['a'] : Str)) ∧ ('_' ∉ (['a', 'b'] : Str)) ∧
    ((['a'] : Str) = [] ↔ (['a', 'b'] : Str) = []) ∧
    ((alignprs ['a'] ['a', 'b']).1 ++ (alignprs ['a'] ['a', 'b']).2.1 ++
          (alignprs ['a'] ['a', 'b']).2.2.1 =
        (levenshtein ['a'] ['a', 'b'] 1 1 (11 / 10)).1 ∧
      (alignprs ['a'] ['a', 'b']).2.2.2.1 ++ (alignprs ['a'] ['a', 'b']).2.2.2.2.1 ++
          (alignprs ['a'] ['a', 'b']).2.2.2.2.2 =
        (levenshtein ['a'] ['a', 'b'] 1 1 (11 / 10)).2.1) :=
  ⟨by decide, by decide, by decide,
    c3_amended_segmentation ['a'] ['a', 'b'] (by decide) (by decide) (by decide)⟩

/-- C7: if the MSD is a key of neither the prefix store nor the suffix
store, `apply_best_rule` returns the lemma completely unchanged. -/
theorem c7_unseen_msd_abstains (lem msd : Str) (P S : RuleStore)
    (hp : alookup msd P = none) (hs : alookup msd S = none) :
    apply_best_rule lem msd P S = lem := by
  unfold apply_best_rule
  rw [if_pos ⟨hp, hs⟩]

theorem c7_unseen_msd_abstains_witness :
    alookup ['X'] ([] : RuleStore) = none ∧
    apply_best_rule ['c', 'a', 't'] ['X'] [] [] = ['c', 'a', 't'] :=
  ⟨by decide, c7_unseen_msd_abstains ['c', 'a', 't'] ['X'] [] [] (by decide) (by decide)⟩

/-- C10: `hamming` is total on unequal-length inputs: for any strings it
returns the number of positions `i < min(len s, len t)` where `s` and `t`
differ, silently ignoring the excess of the longer string. -/
theorem c10_hamming_truncating_count (s t : Str) :
    hamming s t =
      (List.range (min s.length t.length)).countP (fun i => decide (s[i]? ≠ t[i]?)) := by
  induction s generalizing t with
  | nil => simp [hamming]
  | cons x s' ih =>
    cases t with
    | nil => simp [hamming]
    | cons y t' =>
      have hmin : min (x :: s').length (y :: t').length = min s'.length t'.length + 1 := by
        simp only [List.length_cons]
        omega
      rw [hmin, List.range_succ_eq_map]
      unfold hamming
      rw [List.zip_cons_cons, List.countP_cons, List.countP_cons, List.countP_map]
      have hfun : ((fun i => decide ((x :: s')[i]? ≠ (y :: t')[i]?)) ∘ Nat.succ) =
          (fun i => decide (s'[i]? ≠ t'[i]?)) := by
        funext i
        simp [Function.comp]
      rw [hfun]
      have hzero : (decide ((x :: s')[0]? ≠ (y :: t')[0]?)) = decide ¬x = y := by
        simp
      rw [hzero]
      have hh := ih t'
      unfold hamming at hh
      dsimp only
      rw [hh]

/-- C5: for gap-free inputs, the two aligned strings of
`levenshtein(s, t)` (default costs) have equal length, and deleting every
gap-marker from them recovers `s` and `t` respectively. -/
theorem c5_alignment_invariant (s t : Str) (hs : '_' ∉ s) (ht : '_' ∉ t) :
    (levenshtein s t 1 1 1).1.length = (levenshtein s t 1 1 1).2.1.length ∧
    (levenshtein s t 1 1 1).1.filter (fun x => x ≠ '_') = s ∧
    (levenshtein s t 1 1 1).2.1.filter (fun x => x ≠ '_') = t := by
  rw [levenshtein_eq_pure]
  exact ⟨lrecPure_length 1 1 1 s t, (lrecPure_filter 1 1 1 s t hs ht).1,
    (lrecPure_filter 1 1 1 s t hs ht).2⟩

theorem c5_alignment_invariant_witness :
    ('_' ∉ (['a', 'x'] : Str)) ∧ ('_' ∉ (['x', 'b'] : Str)) ∧
    ((levenshtein ['a', 'x'] ['x', 'b'] 1 1 1).1.length =
        (levenshtein ['a', 'x'] ['x', 'b'] 1 1 1).2.1.length ∧
      (levenshtein ['a', 'x'] ['x', 'b'] 1 1 1).1.filter (fun x => x ≠ '_') = ['a', 'x'] ∧
      (levenshtein ['a', 'x'] ['x', 'b'] 1 1 1).2.1.filter (fun x => x ≠ '_') = ['x', 'b']) :=
  ⟨by decide, by decide, c5_alignment_invariant ['a', 'x'] ['x', 'b'] (by decide) (by decide)⟩

/-- C6 counterexample: with `inscost = delcost = 5`, `levenshtein("", "a")`
returns cost `1` (the base case hardcodes a unit cost per remaining
character), strictly below `|len(s) − len(t)| * min(inscost, delcost) = 5`,
so the claimed lower bound fails as stated. -/
theorem c6_counterexample :
    (levenshtein [] ['a'] 5 5 1).2.2 = 1 ∧
    ¬(((Nat.dist ([] : Str).length ['a'].length : ℕ) : ℚ) * min (5 : ℚ) 5 ≤
        (levenshtein [] ['a'] 5 5 1).2.2) := by
  constructor
  · rw [levenshtein_eq_pure]
    decide
  · rw [levenshtein_eq_pure]
    decide

/-- C6 amended: for the cost parameters the program actually uses
(`inscost = delcost = 1`, any `substcost > 0`), the returned total cost is
at least `|len(s) − len(t)| * min(inscost, delcost)` and is `0` exactly when
`s = t`. -/
theorem c6_amended_cost_bound (s t : Str) (sc : ℚ) (hsc : 0 < sc) :
    ((Nat.dist s.length t.length : ℕ) : ℚ) * min (1 : ℚ) 1 ≤ (levenshtein s t 1 1 sc).2.2 ∧
    ((levenshtein s t 1 1 sc).2.2 = 0 ↔ s = t) := by
  rw [levenshtein_eq_pure]
  refine ⟨?_, ?_, ?_⟩
  · have h := lrecPure_cost_lb sc (le_of_lt hsc) s t
    simpa using h
  · exact lrecPure_cost_zero sc hsc s t
  · rintro rfl
    exact lrecPure_cost_self sc (le_of_lt hsc) s

theorem c6_amended_cost_bound_witness :
    (0 : ℚ) < 1 ∧
    (((Nat.dist (['a'] : Str).length (['a', 'b'] : Str).length : ℕ) : ℚ) * min (1 : ℚ) 1 ≤
        (levenshtein ['a'] ['a', 'b'] 1 1 1).2.2 ∧
      ((levenshtein ['a'] ['a', 'b'] 1 1 1).2.2 = 0 ↔ (['a'] : Str) = ['a', 'b'])) :=
  ⟨by norm_num, c6_amended_cost_bound ['a'] ['a', 'b'] 1 (by norm_num)⟩

/-- C1 counterexample: with the single suffix rule `("a", "b")` (frequency 1)
registered for the MSD, `apply_best_rule("aa", msd)` rewrites the base
`"<aa>"` to `"<bb>"` — Python `str.replace` substitutes at **every**
occurrence — whereas the claimed first-occurrence-only semantics
(`replaceFirstSpec`) would give `"<ba>"`, i.e. output `"ba"`, not the
actual `"bb"`. -/
theorem c1_counterexample :
    apply_best_rule ['a', 'a'] ['M'] [] [(['M'], [((['a'], ['b']), 1)])] = ['b', 'b'] ∧
    replaceFirstSpec ['<', 'a', 'a', '>'] ['a'] ['b'] = ['<', 'b', 'a', '>'] ∧
    pyReplace (pyReplace ['<', 'b', 'a', '>'] ['<'] []) ['>'] [] = ['b', 'a'] ∧
    (['b', 'b'] : Str) ≠ ['b', 'a'] := by
  refine ⟨?_, ?_, ?_, ?_⟩ <;> decide

/-- C1 amended: `apply_best_rule` substitutes the selected rule with Python
replace-all semantics (`pyReplace`), which scans left to right replacing
every non-overlapping occurrence; this coincides with the
first-occurrence-only substitution described by the claim exactly when the
input pattern occurs at most once in the base string. -/
theorem c1_amended_replace_all (s old new : Str) (h : occCount s old ≤ 1) :
    pyReplace s old new = replaceFirstSpec s old new := by
  by_cases ho : old = []
  · subst ho
    have h' : s.length + 1 ≤ 1 := h
    have hz : s = [] := List.length_eq_zero.mp (by omega)
    subst hz
    rfl
  · have main : ∀ n s, s.length ≤ n → occCount s old ≤ 1 →
        pyReplace s old new = replaceFirstSpec s old new := by
      intro n
      induction n with
      | zero =>
        intro s h1 _
        have hz : s = [] := List.length_eq_zero.mp (Nat.le_zero.mp h1)
        subst hz
        obtain ⟨o, os, rfl⟩ := List.exists_cons_of_ne_nil ho
        rw [pyReplace_nil _ _ ho]
        rfl
      | succ n ih =>
        intro s h1 h2
        cases s with
        | nil =>
          obtain ⟨o, os, rfl⟩ := List.exists_cons_of_ne_nil ho
          rw [pyReplace_nil _ _ ho]
          rfl
        | cons c rest =>
          rw [pyReplace_cons _ _ ho]
          rw [occCount_cons _ ho] at h2
          by_cases hp : old.isPrefixOf (c :: rest)
          · rw [if_pos hp]
            rw [if_pos hp] at h2
            have h0 : occCount ((c :: rest).drop old.length) old = 0 := by omega
            rw [pyReplace_of_occCount_zero _ _ _ h0]
            obtain ⟨o, os, rfl⟩ := List.exists_cons_of_ne_nil ho
            simp [replaceFirstSpec, hp]
          · rw [if_neg hp]
            rw [if_neg hp] at h2
            obtain ⟨o, os, rfl⟩ := List.exists_cons_of_ne_nil ho
            simp only [replaceFirstSpec, if_neg hp]
            simp only [List.length_cons] at h1
            rw [ih rest (by omega) h2]
    exact main s.length s le_rfl h

theorem c1_amended_replace_all_witness :
    occCount ['<', 'a', '>'] ['a', '>'] ≤ 1 ∧
    pyReplace ['<', 'a', '>'] ['a', '>'] ['b', '>'] =
      replaceFirstSpec ['<', 'a', '>'] ['a', '>'] ['b', '>'] :=
  ⟨by decide, c1_amended_replace_all ['<', 'a', '>'] ['a', '>'] ['b', '>'] (by decide)⟩

/-- C8: in the suffix step of `apply_best_rule`, the selected rule (the
`pymax` over the applicable rules for the MSD) maximizes the key
`(len(input_pattern), frequency, len(output_pattern))` in lexicographic
order over all applicable rules; in particular no applicable rule has a
strictly longer input pattern than the selected one. -/
theorem c8_suffix_selection_maximal (msd : Str) (S : RuleStore) (lem : Str)
    (rules : List ((Str × Str) × Nat)) (r : (Str × Str) × Nat)
    (rs : List ((Str × Str) × Nat)) (hlook : alookup msd S = some rules)
    (happ : rules.filter (fun e => isSubstr e.1.1 ('<' :: lem ++ ['>'])) = r :: rs) :
    pymax suffKey r rs ∈ r :: rs ∧
    ∀ e ∈ r :: rs, suffKey e ≤ suffKey (pymax suffKey r rs) ∧
      e.1.1.length ≤ (pymax suffKey r rs).1.1.length := by
  refine ⟨pymax_mem _ _ _, fun e he => ⟨pymax_le _ _ _ e he, ?_⟩⟩
  have h := pymax_le suffKey r rs e he
  rw [suffKey, suffKey, Prod.Lex.le_iff] at h
  rcases h with h | ⟨h1, -⟩
  · exact le_of_lt h
  · exact le_of_eq h1

theorem c8_suffix_selection_maximal_witness :
    ([((['>'], ['d', '>']), 2), ((['a', '>'], ['b', '>']), 1)].filter
        (fun e => isSubstr e.1.1 ('<' :: ['a'] ++ ['>'])) =
      ((['>'], ['d', '>']), 2) :: [((['a', '>'], ['b', '>']), 1)]) ∧
    (pymax suffKey ((['>'], ['d', '>']), 2) [((['a', '>'], ['b', '>']), 1)] ∈
        ((['>'], ['d', '>']), 2) :: [((['a', '>'], ['b', '>']), 1)] ∧
      ∀ e ∈ ((['>'], ['d', '>']), 2) :: [((['a', '>'], ['b', '>']), 1)],
        suffKey e ≤ suffKey (pymax suffKey ((['>'], ['d', '>']), 2)
            [((['a', '>'], ['b', '>']), 1)]) ∧
        e.1.1.length ≤ (pymax suffKey ((['>'], ['d', '>']), 2)
            [((['a', '>'], ['b', '>']), 1)]).1.1.length) :=
  ⟨by decide,
    c8_suffix_selection_maximal ['M'] [(['M'], [((['>'], ['d', '>']), 2),
        ((['a', '>'], ['b', '>']), 1)])] ['a']
      [((['>'], ['d', '>']), 2), ((['a', '>'], ['b', '>']), 1)]
      ((['>'], ['d', '>']), 2) [((['a', '>'], ['b', '>']), 1)] (by decide) (by decide)⟩

/-- C9: memoization preserves meaning — for all inputs and cost parameters,
the memoized `levenshtein` (cache keyed on the pair of remaining suffixes,
storing prefix-independent fragments recombined at lookup time) returns
exactly the same aligned strings and total cost as the same recursion
evaluated without any memoization. -/
theorem c9_memoization_preserves_meaning (s t : Str) (ic dc sc : ℚ) :
    levenshtein s t ic dc sc = lrecNM ic dc sc [] [] s t 0 := by
  rw [levenshtein_eq_pure, lrecNM_eq_pure]
  simp

set_option maxHeartbeats 2000000 in
/-- C4 counterexample: for the training pair `("a", "ba")` (a prefix
change), inserting the extracted rules with frequency 1 into otherwise
empty stores in one particular enumeration order — legitimate, since Python
set iteration order is arbitrary — makes the prefix step pick the empty
input pattern `("", "b")`, and `apply_best_rule("a")` returns `"bbabb"`,
not the form `"ba"`. -/
theorem c4_counterexample :
    ((prefix_suffix_rules_get ['a'] ['b', 'a']).1.map (fun r => (r, 1))).Perm
        [((([] : Str), (['b'] : Str)), 1), (((['<'] : Str), (['<', 'b'] : Str)), 1)] ∧
    ((prefix_suffix_rules_get ['a'] ['b', 'a']).2.map (fun r => (r, 1))).Perm
        [(((['a', '>'] : Str), (['a', '>'] : Str)), 1), (((['>'] : Str), (['>'] : Str)), 1)] ∧
    apply_best_rule ['a'] ['M']
        [(['M'], [((([] : Str), (['b'] : Str)), 1), (((['<'] : Str), (['<', 'b'] : Str)), 1)])]
        [(['M'], [(((['a', '>'] : Str), (['a', '>'] : Str)), 1),
          (((['>'] : Str), (['>'] : Str)), 1)])] =
      ['b', 'b', 'a', 'b', 'b'] ∧
    (['b', 'b', 'a', 'b', 'b'] : Str) ≠ ['b', 'a'] := by
  refine ⟨?_, ?_, ?_, ?_⟩ <;> decide

/-- C4 amended: single-example round-trip holds for suffix-style pairs.  For
any training triple (lemma, msd, form) whose strings contain none of the
reserved symbols `<`, `>`, `_`, and whose `levenshtein(lemma, form,
substcost=1.1)` alignment has no leading gap-marker on either side (i.e. no
prefix change), inserting the rules extracted by `prefix_suffix_rules_get`
(each with frequency 1, in any enumeration order) into otherwise empty
stores under `msd` makes `apply_best_rule` return exactly `form`.  (With a
prefix change the result depends on the enumeration order of the rule set
and can differ from `form`, as the counterexample shows.) -/
theorem c4_amended_roundtrip (lem form msd : Str)
    (hlem1 : '<' ∉ lem) (hlem2 : '>' ∉ lem) (hlem3 : '_' ∉ lem)
    (hform1 : '<' ∉ form) (hform2 : '>' ∉ form) (hform3 : '_' ∉ form)
    (hlead1 : leadingGaps (levenshtein lem form 1 1 (11 / 10)).1 = 0)
    (hlead2 : leadingGaps (levenshtein lem form 1 1 (11 / 10)).2.1 = 0)
    (pl sl : List ((Str × Str) × Nat))
    (hpl : pl.Perm ((prefix_suffix_rules_get lem form).1.map (fun r => (r, 1))))
    (hsl : sl.Perm ((prefix_suffix_rules_get lem form).2.map (fun r => (r, 1)))) :
    apply_best_rule lem msd [(msd, pl)] [(msd, sl)] = form := by
  have hpure := levenshtein_eq_pure lem form 1 1 (11 / 10)
  have hL0 : max (leadingGaps (levenshtein lem form 1 1 (11 / 10)).1)
      (leadingGaps (levenshtein lem form 1 1 (11 / 10)).2.1) = 0 := by
    rw [hlead1, hlead2]
    simp
  have e1 : (alignprs lem form).1 = [] := by
    rw [alignprs_unfold]
    dsimp only
    rw [hL0]
    rfl
  have e3 : (alignprs lem form).2.2.2.1 = [] := by
    rw [alignprs_unfold]
    dsimp only
    rw [hL0]
    rfl
  have e2 : (alignprs lem form).2.1 ++ (alignprs lem form).2.2.1 =
      (levenshtein lem form 1 1 (11 / 10)).1 := by
    rw [alignprs_unfold]
    dsimp only
    rw [hL0]
    exact slice0_recon _ _
  have e4 : (alignprs lem form).2.2.2.2.1 ++ (alignprs lem form).2.2.2.2.2 =
      (levenshtein lem form 1 1 (11 / 10)).2.1 := by
    rw [alignprs_unfold]
    dsimp only
    rw [hL0]
    exact slice0_recon _ _
  have hpr : (prefix_suffix_rules_get lem form).1 = [((['<'] : Str), (['<'] : Str))] := by
    unfold prefix_suffix_rules_get
    dsimp only
    rw [if_pos (Or.inl (Nat.zero_le _)), e1, e3]
    decide
  have hsr : (prefix_suffix_rules_get lem form).2 =
      generate_rules ((levenshtein lem form 1 1 (11 / 10)).1 ++ ['>'])
        ((levenshtein lem form 1 1 (11 / 10)).2.1 ++ ['>']) := by
    unfold prefix_suffix_rules_get
    dsimp only
    rw [e2, e4]
  have hplx : pl = [(((['<'] : Str), (['<'] : Str)), 1)] := by
    rw [hpr] at hpl
    simp only [List.map_cons, List.map_nil] at hpl
    exact List.perm_singleton.mp hpl
  subst hplx
  have hfA : pyReplace (levenshtein lem form 1 1 (11 / 10)).1 ['_'] [] = lem := by
    rw [pyReplace_single_char, hpure]
    exact (lrecPure_filter 1 1 (11 / 10) lem form hlem3 hform3).1
  have hfF : pyReplace (levenshtein lem form 1 1 (11 / 10)).2.1 ['_'] [] = form := by
    rw [pyReplace_single_char, hpure]
    exact (lrecPure_filter 1 1 (11 / 10) lem form hlem3 hform3).2
  have hr0mem : ((lem ++ ['>'], form ++ ['>']), 1) ∈ sl := by
    apply hsl.mem_iff.mpr
    rw [hsr]
    apply List.mem_map.mpr
    refine ⟨(lem ++ ['>'], form ++ ['>']), ?_, rfl⟩
    have h0 := c4_rule0_mem (levenshtein lem form 1 1 (11 / 10)).1
      (levenshtein lem form 1 1 (11 / 10)).2.1
    rw [hfA, hfF] at h0
    exact h0
  have hslne : sl ≠ [] := by
    intro h
    rw [h] at hr0mem
    exact absurd hr0mem (List.not_mem_nil _)
  obtain ⟨r, rs, rfl⟩ := List.exists_cons_of_ne_nil hslne
  have hmemsl : ∀ e ∈ r :: rs,
      ∃ ρ ∈ generate_rules ((levenshtein lem form 1 1 (11 / 10)).1 ++ ['>'])
        ((levenshtein lem form 1 1 (11 / 10)).2.1 ++ ['>']), e = (ρ, 1) := by
    intro e he
    have hm := hsl.subset he
    rw [hsr] at hm
    obtain ⟨ρ, hρ, rfl⟩ := List.mem_map.mp hm
    exact ⟨ρ, hρ, rfl⟩
  have happfilter : (r :: rs).filter (fun e => isSubstr e.1.1 ('<' :: lem ++ ['>'])) =
      r :: rs := by
    rw [List.filter_eq_self]
    intro e he
    obtain ⟨ρ, hρ, rfl⟩ := hmemsl e he
    obtain ⟨i, hiA, hiF, rfl⟩ := c4_suffix_rules_shape _ _ hρ
    exact c4_rule_applicable _ lem i hfA
  have hbest : pymax suffKey r rs = ((lem ++ ['>'], form ++ ['>']), 1) :=
    c4_best_suffix lem form _ _ hfA hfF r rs hmemsl hr0mem
  have ha1 : alookup msd [(msd, [(((['<'] : Str), (['<'] : Str)), 1)])] =
      some [(((['<'] : Str), (['<'] : Str)), 1)] := by simp [alookup]
  have ha2 : alookup msd [(msd, r :: rs)] = some (r :: rs) := by simp [alookup]
  unfold apply_best_rule
  rw [ha1, ha2]
  rw [if_neg (by simp)]
  dsimp only
  rw [happfilter]
  dsimp only
  rw [hbest]
  dsimp only
  rw [show pyReplace ('<' :: lem ++ ['>']) (lem ++ ['>']) (form ++ ['>']) =
      ['<'] ++ (form ++ ['>']) from
    pyReplace_unique_marker lem (form ++ ['>']) hlem2 ['<'] (by decide)]
  have hprefapp : [(((['<'] : Str), (['<'] : Str)), 1)].filter
      (fun e => isSubstr e.1.1 (['<'] ++ (form ++ ['>']))) =
      [(((['<'] : Str), (['<'] : Str)), 1)] := by
    rw [List.filter_eq_self]
    intro e he
    rcases List.mem_singleton.mp he with rfl
    exact isSubstr_of_parts ['<'] [] (form ++ ['>']) _ (by simp)
  rw [hprefapp]
  dsimp only [pymax]
  rw [pyReplace_self]
  rw [pyReplace_single_char, pyReplace_single_char]
  have hx1 : (['<'] ++ (form ++ ['>'])).filter (fun x => x ≠ '<') = form ++ ['>'] := by
    rw [List.filter_append, List.filter_append, filter_ne_of_not_mem hform1,
      show (['<'] : Str).filter (fun x => x ≠ '<') = [] from by decide,
      show (['>'] : Str).filter (fun x => x ≠ '<') = ['>'] from by decide,
      List.nil_append]
  rw [hx1, List.filter_append, filter_ne_of_not_mem hform2,
    show (['>'] : Str).filter (fun x => x ≠ '>') = [] from by decide, List.append_nil]

theorem c4_amended_roundtrip_witness :
    ('<' ∉ (['a'] : Str)) ∧ ('>' ∉ (['a'] : Str)) ∧ ('_' ∉ (['a'] : Str)) ∧
    ('<' ∉ (['a', 'b'] : Str)) ∧ ('>' ∉ (['a', 'b'] : Str)) ∧ ('_' ∉ (['a', 'b'] : Str)) ∧
    leadingGaps (levenshtein ['a'] ['a', 'b'] 1 1 (11 / 10)).1 = 0 ∧
    leadingGaps (levenshtein ['a'] ['a', 'b'] 1 1 (11 / 10)).2.1 = 0 ∧
    apply_best_rule ['a'] ['M']
        [(['M'], (prefix_suffix_rules_get ['a'] ['a', 'b']).1.map (fun r => (r, 1)))]
        [(['M'], (prefix_suffix_rules_get ['a'] ['a', 'b']).2.map (fun r => (r, 1)))] =
      ['a', 'b'] :=
  ⟨by decide, by decide, by decide, by decide, by decide, by decide, by decide, by decide,
    c4_amended_roundtrip ['a'] ['a', 'b'] ['M'] (by decide) (by decide) (by decide) (by decide)
      (by decide) (by decide) (by decide) (by decide) _ _ (List.Perm.refl _) (List.Perm.refl _)⟩

end NonNeuralTur
